import Mathlib

/-!
Verification of the DIET (Discrete Interval Encoding Tree) library.

The source is a Rust crate generic over a type T : Ord + Step; the shallow
embedding instantiates T at the unbounded integers Int, with add_one as
(· + 1) and sub_one as (· - 1).  Link<T> = Option<Box<Node<T>>> together
with Node<T> is embedded as a single inductive Link: nil stands for None,
and node l s r stands for Some(Node { segment := s, left := l, right := r }).
All functions are translated line by line from src/lib.rs; in-place
mutation through &mut references becomes explicit value passing (a function
that mutates a link returns the new link).
-/

/-- Segment<T>: a closed interval over the discrete ordered domain. -/
structure Segment where
  left : Int
  right : Int
deriving DecidableEq

/-- Segment::new(left, right).  The assert!(left <= right) is modelled by
Option: none is the aborted (panicking) construction. -/
def Segment.new (l r : Int) : Option Segment :=
  if l ≤ r then some ⟨l, r⟩ else none

/-- Segment::contains(value): left <= value && value <= right. -/
def Segment.contains (s : Segment) (v : Int) : Bool :=
  decide (s.left ≤ v) && decide (v ≤ s.right)

/-- Link<T> / Node<T> as one inductive: nil is an absent link, node l s r is
a boxed Node with segment s and child links l, r. -/
inductive Link where
  | nil : Link
  | node (left : Link) (segment : Segment) (right : Link) : Link
deriving DecidableEq

/-- Node::consume_left_link(link, left): walk right while the current node is
not adjacent to the candidate boundary; otherwise splice the node out,
replacing the link with the node's own left child (dropping the node and its
right subtree) and return the removed node's segment.left.  The returned pair
is (new boundary, new value of the link). -/
def consume_left_link : Link → Int → Int × Link
  | Link.nil, lb => (lb, Link.nil)
  | Link.node l s r, lb =>
    if s.right + 1 < lb then
      ((consume_left_link r lb).1, Link.node l s (consume_left_link r lb).2)
    else
      (s.left, l)

/-- Node::consume_right_link(link, right): mirror image of
consume_left_link. -/
def consume_right_link : Link → Int → Int × Link
  | Link.nil, rb => (rb, Link.nil)
  | Link.node l s r, rb =>
    if rb < s.left - 1 then
      ((consume_right_link l rb).1, Link.node (consume_right_link l rb).2 s r)
    else
      (s.right, r)

/-- Node::insert_link together with Node::insert, as one total function on
links: insert_link on a None link creates a fresh node, on a Some link it
runs Node::insert on the node, which is the nested-if merge logic of
src/lib.rs lines 83-109. -/
def insert_link : Link → Segment → Link
  | Link.nil, seg => Link.node Link.nil seg Link.nil
  | Link.node l s r, seg =>
    if seg.right < s.left then
      if seg.right < s.left - 1 then
        Link.node (insert_link l seg) s r
      else
        Link.node (consume_left_link l seg.left).2
          ⟨(consume_left_link l seg.left).1, s.right⟩ r
    else if s.right < seg.left then
      if s.right + 1 < seg.left then
        Link.node l s (insert_link r seg)
      else
        Link.node l ⟨s.left, (consume_right_link r seg.right).1⟩
          (consume_right_link r seg.right).2
    else
      Link.node
        (if seg.left < s.left then (consume_left_link l seg.left).2 else l)
        ⟨(if seg.left < s.left then (consume_left_link l seg.left).1 else s.left),
         (if s.right < seg.right then (consume_right_link r seg.right).1 else s.right)⟩
        (if s.right < seg.right then (consume_right_link r seg.right).2 else r)

/-- Node::contains(value), with the absent-child cases folded into nil. -/
def contains_node : Link → Int → Bool
  | Link.nil, _ => false
  | Link.node l s r, v =>
    if v < s.left then contains_node l v
    else if s.right < v then contains_node r v
    else true

/-- Diet<T>: owns an optional root node. -/
structure Diet where
  root : Link
deriving DecidableEq

/-- Diet::new(). -/
def Diet.new : Diet := ⟨Link.nil⟩

/-- Diet::insert(segment): delegate to the root node, or install a fresh
root; both branches coincide with insert_link on the root link. -/
def Diet.insert (d : Diet) (seg : Segment) : Diet := ⟨insert_link d.root seg⟩

/-- Diet::is_empty(): root.is_none(). -/
def Diet.isEmpty (d : Diet) : Bool :=
  match d.root with
  | Link.nil => true
  | Link.node _ _ _ => false

/-- Diet::clear(): *self = Self::new(). -/
def Diet.clear (_ : Diet) : Diet := Diet.new

/-- Diet::contains(value): delegate to the root, false when empty. -/
def Diet.contains (d : Diet) (v : Int) : Bool := contains_node d.root v

/-- Number of nodes of a tree. -/
def sizeT : Link → Nat
  | Link.nil => 0
  | Link.node l _ r => sizeT l + sizeT r + 1

/-- A DietIterator stack entry: a popped/pushed node whose left link has been
taken, i.e. its segment together with its remaining right link. -/
abbrev StackItem := Segment × Link

/-- DietIterator::descend: repeatedly detach and push the current node while
moving into its left child, until the link is empty. -/
def descend (stack : List StackItem) : Link → List StackItem
  | Link.nil => stack
  | Link.node l s r => descend ((s, r) :: stack) l

/-- One Iterator::next step on the stack: pop the top node, descend into its
right child, and yield the popped segment; none when the stack is empty. -/
def iterStep : List StackItem → Option (Segment × List StackItem)
  | [] => none
  | (s, r) :: rest => some (s, descend rest r)

/-- Total number of nodes still held by the stack (each entry holds one node
plus its right subtree); this bounds the number of remaining next() calls
that yield a segment. -/
def stackSize (st : List StackItem) : Nat :=
  (st.map (fun p => sizeT p.2 + 1)).sum

/-- Running the iterator to exhaustion.  Fuel makes the recursion structural;
stackSize st fuel is always enough (proved below), so the fuel-exhausted
branch is never taken when the iterator is run with that much fuel. -/
def runIterFuel : Nat → List StackItem → List Segment
  | _, [] => []
  | 0, _ :: _ => []
  | Nat.succ n, (s, r) :: rest => s :: runIterFuel n (descend rest r)

/-- The full segment sequence produced by Diet::into_iter() followed by
collecting every next() result. -/
def dietIterList (d : Diet) : List Segment :=
  runIterFuel (sizeT d.root) (descend [] d.root)

/-- In-order list of the segments stored in a tree. -/
def toList : Link → List Segment
  | Link.nil => []
  | Link.node l s r => toList l ++ s :: toList r

/-- The segments a stack will still produce, in order. -/
def flattenStack : List StackItem → List Segment
  | [] => []
  | (s, r) :: rest => s :: (toList r ++ flattenStack rest)

/-- The structural BST/gap invariant of the tree (spec section 3): segments
are well formed, every segment in a left subtree ends at least two below the
node's own left bound, and every segment in a right subtree starts at least
two above the node's own right bound. -/
def DietInv : Link → Bool
  | Link.nil => true
  | Link.node l s r =>
    decide (s.left ≤ s.right) &&
    (toList l).all (fun x => decide (x.right + 1 < s.left)) &&
    (toList r).all (fun x => decide (s.right + 1 < x.left)) &&
    DietInv l && DietInv r

/-- Inserting a list of segments into a fresh Diet, in order. -/
def dietOfList (l : List Segment) : Diet := l.foldl Diet.insert Diet.new

/-- The gap relation between stored segments: a ends at least two below the
start of b, so a and b are disjoint and non-adjacent. -/
def gapR (a b : Segment) : Prop := a.right + 1 < b.left

/-- The Option-valued contents of a link: the value consumed by the
mem::replace(link, _).unwrap() calls.  none = the unwrap would panic. -/
def linkNode : Link → Option (Link × Segment × Link)
  | Link.nil => none
  | Link.node l s r => some (l, s, r)

/-- consume_left_link with its final unwrap made explicit: in the splice
branch the old link value (the node, left child already detached) is
unwrapped; none models the panic. -/
def consume_left_link_chk : Link → Int → Option (Int × Link)
  | Link.nil, lb => some (lb, Link.nil)
  | Link.node l s r, lb =>
    if s.right + 1 < lb then
      (consume_left_link_chk r lb).bind fun p => some (p.1, Link.node l s p.2)
    else
      (linkNode (Link.node Link.nil s r)).bind fun q => some (q.2.1.left, l)

/-- consume_right_link with its final unwrap made explicit. -/
def consume_right_link_chk : Link → Int → Option (Int × Link)
  | Link.nil, rb => some (rb, Link.nil)
  | Link.node l s r, rb =>
    if rb < s.left - 1 then
      (consume_right_link_chk l rb).bind fun p => some (p.1, Link.node p.2 s r)
    else
      (linkNode (Link.node l s Link.nil)).bind fun q => some (q.2.1.right, r)

/-- insert_link with every potentially panicking sub-call routed through
Option. -/
def insert_link_chk : Link → Segment → Option Link
  | Link.nil, seg => some (Link.node Link.nil seg Link.nil)
  | Link.node l s r, seg =>
    if seg.right < s.left then
      if seg.right < s.left - 1 then
        (insert_link_chk l seg).bind fun l2 => some (Link.node l2 s r)
      else
        (consume_left_link_chk l seg.left).bind fun p =>
          some (Link.node p.2 ⟨p.1, s.right⟩ r)
    else if s.right < seg.left then
      if s.right + 1 < seg.left then
        (insert_link_chk r seg).bind fun r2 => some (Link.node l s r2)
      else
        (consume_right_link_chk r seg.right).bind fun p =>
          some (Link.node l ⟨s.left, p.1⟩ p.2)
    else
      (if seg.left < s.left then consume_left_link_chk l seg.left
       else some (s.left, l)).bind fun pl =>
      (if s.right < seg.right then consume_right_link_chk r seg.right
       else some (s.right, r)).bind fun pr =>
      some (Link.node pl.2 ⟨pl.1, pr.1⟩ pr.2)

lemma contains_true_iff (s : Segment) (v : Int) :
    Segment.contains s v = true ↔ s.left ≤ v ∧ v ≤ s.right := by
  simp [Segment.contains]

lemma mem_toList_node {x : Segment} {l r : Link} {s : Segment} :
    x ∈ toList (Link.node l s r) ↔ x ∈ toList l ∨ x = s ∨ x ∈ toList r := by
  simp [toList]

lemma toList_consume_left (t : Link) (c : Int) :
    ∃ dropped, toList t = toList (consume_left_link t c).2 ++ dropped ∧
      ((dropped = [] ∧ (consume_left_link t c).1 = c) ∨
       ∃ s rest, dropped = s :: rest ∧ (consume_left_link t c).1 = s.left) := by
  induction t with
  | nil => exact ⟨[], by simp [consume_left_link, toList], Or.inl ⟨rfl, rfl⟩⟩
  | node l s r ihl ihr =>
    by_cases hc : s.right + 1 < c
    · obtain ⟨d, hd, hcase⟩ := ihr
      refine ⟨d, ?_, ?_⟩
      · simp only [consume_left_link, if_pos hc, toList]
        rw [hd]
        simp
      · simp only [consume_left_link, if_pos hc]
        exact hcase
    · refine ⟨s :: toList r, ?_, Or.inr ⟨s, toList r, rfl, ?_⟩⟩
      · simp [consume_left_link, if_neg hc, toList]
      · simp [consume_left_link, if_neg hc]

lemma mem_consume_left {t : Link} {c : Int} {x : Segment}
    (hx : x ∈ toList (consume_left_link t c).2) : x ∈ toList t := by
  obtain ⟨d, hd, -⟩ := toList_consume_left t c
  rw [hd]
  exact List.mem_append_left _ hx

lemma consume_left_fst (t : Link) (c : Int) :
    (consume_left_link t c).1 = c ∨
      ∃ x ∈ toList t, (consume_left_link t c).1 = x.left := by
  obtain ⟨d, hd, hcase⟩ := toList_consume_left t c
  rcases hcase with ⟨-, h⟩ | ⟨s, rest, hrest, h⟩
  · exact Or.inl h
  · refine Or.inr ⟨s, ?_, h⟩
    rw [hd, hrest]
    exact List.mem_append_right _ (List.mem_cons_self _ _)

lemma toList_consume_right (t : Link) (c : Int) :
    ∃ dropped, toList t = dropped ++ toList (consume_right_link t c).2 ∧
      ((dropped = [] ∧ (consume_right_link t c).1 = c) ∨
       ∃ s rest, dropped = rest ++ [s] ∧ (consume_right_link t c).1 = s.right) := by
  induction t with
  | nil => exact ⟨[], by simp [consume_right_link, toList], Or.inl ⟨rfl, rfl⟩⟩
  | node l s r ihl ihr =>
    by_cases hc : c < s.left - 1
    · obtain ⟨d, hd, hcase⟩ := ihl
      refine ⟨d, ?_, ?_⟩
      · simp only [consume_right_link, if_pos hc, toList]
        rw [hd]
        simp
      · simp only [consume_right_link, if_pos hc]
        exact hcase
    · refine ⟨toList l ++ [s], ?_, Or.inr ⟨s, toList l, rfl, ?_⟩⟩
      · simp [consume_right_link, if_neg hc, toList]
      · simp [consume_right_link, if_neg hc]

lemma mem_consume_right {t : Link} {c : Int} {x : Segment}
    (hx : x ∈ toList (consume_right_link t c).2) : x ∈ toList t := by
  obtain ⟨d, hd, -⟩ := toList_consume_right t c
  rw [hd]
  exact List.mem_append_right _ hx

lemma consume_right_fst (t : Link) (c : Int) :
    (consume_right_link t c).1 = c ∨
      ∃ x ∈ toList t, (consume_right_link t c).1 = x.right := by
  obtain ⟨d, hd, hcase⟩ := toList_consume_right t c
  rcases hcase with ⟨-, h⟩ | ⟨s, rest, hrest, h⟩
  · exact Or.inl h
  · refine Or.inr ⟨s, ?_, h⟩
    rw [hd, hrest]
    exact List.mem_append_left _ (List.mem_append_right _ (List.mem_cons_self _ _))

lemma DietInv_node {l : Link} {s : Segment} {r : Link} :
    DietInv (Link.node l s r) = true ↔
      s.left ≤ s.right ∧ (∀ x ∈ toList l, x.right + 1 < s.left) ∧
      (∀ x ∈ toList r, s.right + 1 < x.left) ∧
      DietInv l = true ∧ DietInv r = true := by
  simp [DietInv, List.all_eq_true, and_assoc]

lemma DietInv_wf {t : Link} (h : DietInv t = true) :
    ∀ x ∈ toList t, x.left ≤ x.right := by
  induction t with
  | nil => simp [toList]
  | node l s r ihl ihr =>
    rw [DietInv_node] at h
    obtain ⟨hwf, -, -, hIl, hIr⟩ := h
    intro x hx
    rcases mem_toList_node.1 hx with h1 | rfl | h1
    · exact ihl hIl x h1
    · exact hwf
    · exact ihr hIr x h1

lemma consume_left_spec {t : Link} (c : Int) (h : DietInv t = true) :
    DietInv (consume_left_link t c).2 = true ∧
    ∀ x ∈ toList (consume_left_link t c).2,
      x.right + 1 < (consume_left_link t c).1 := by
  induction t with
  | nil => simp [consume_left_link, DietInv, toList]
  | node l s r ihl ihr =>
    rw [DietInv_node] at h
    obtain ⟨hwf, hl, hr, hIl, hIr⟩ := h
    by_cases hc : s.right + 1 < c
    · have ih := ihr hIr
      have hsf : s.right + 1 < (consume_left_link r c).1 := by
        rcases consume_left_fst r c with h1 | ⟨y, hy, h1⟩
        · omega
        · rw [h1]
          exact hr y hy
      constructor
      · simp only [consume_left_link, if_pos hc]
        rw [DietInv_node]
        exact ⟨hwf, hl, fun x hx => hr x (mem_consume_left hx), hIl, ih.1⟩
      · simp only [consume_left_link, if_pos hc]
        intro x hx
        rcases mem_toList_node.1 hx with h1 | rfl | h1
        · have := hl x h1
          omega
        · exact hsf
        · exact ih.2 x h1
    · simp only [consume_left_link, if_neg hc]
      exact ⟨hIl, hl⟩

lemma consume_right_spec {t : Link} (c : Int) (h : DietInv t = true) :
    DietInv (consume_right_link t c).2 = true ∧
    ∀ x ∈ toList (consume_right_link t c).2,
      (consume_right_link t c).1 + 1 < x.left := by
  induction t with
  | nil => simp [consume_right_link, DietInv, toList]
  | node l s r ihl ihr =>
    rw [DietInv_node] at h
    obtain ⟨hwf, hl, hr, hIl, hIr⟩ := h
    by_cases hc : c < s.left - 1
    · have ih := ihl hIl
      have hsf : (consume_right_link l c).1 + 1 < s.left := by
        rcases consume_right_fst l c with h1 | ⟨y, hy, h1⟩
        · omega
        · rw [h1]
          exact hl y hy
      constructor
      · simp only [consume_right_link, if_pos hc]
        rw [DietInv_node]
        exact ⟨hwf, fun x hx => hl x (mem_consume_right hx), hr, ih.1, hIr⟩
      · simp only [consume_right_link, if_pos hc]
        intro x hx
        rcases mem_toList_node.1 hx with h1 | rfl | h1
        · exact ih.2 x h1
        · exact hsf
        · have := hr x h1
          omega
    · simp only [consume_right_link, if_neg hc]
      exact ⟨hIr, hr⟩

lemma insert_link_lefts (t : Link) (seg : Segment) :
    ∀ x ∈ toList (insert_link t seg),
      x.left = seg.left ∨ ∃ y ∈ toList t, x.left = y.left := by
  induction t with
  | nil =>
    intro x hx
    simp only [insert_link, toList, List.mem_append, List.mem_cons,
      List.not_mem_nil, or_false, false_or] at hx
    subst hx
    exact Or.inl rfl
  | node l s r ihl ihr =>
    intro x hx
    by_cases h1 : seg.right < s.left
    · by_cases h2 : seg.right < s.left - 1
      · simp only [insert_link, if_pos h1, if_pos h2] at hx
        rcases mem_toList_node.1 hx with hm | hs | hm
        · rcases ihl x hm with h | ⟨y, hy, h⟩
          · exact Or.inl h
          · exact Or.inr ⟨y, mem_toList_node.2 (Or.inl hy), h⟩
        · exact Or.inr ⟨s, mem_toList_node.2 (Or.inr (Or.inl rfl)), by rw [hs]⟩
        · exact Or.inr ⟨x, mem_toList_node.2 (Or.inr (Or.inr hm)), rfl⟩
      · simp only [insert_link, if_pos h1, if_neg h2] at hx
        rcases mem_toList_node.1 hx with hm | hs | hm
        · exact Or.inr ⟨x, mem_toList_node.2 (Or.inl (mem_consume_left hm)), rfl⟩
        · rcases consume_left_fst l seg.left with h | ⟨y, hy, h⟩
          · left
            rw [hs]
            exact h
          · exact Or.inr ⟨y, mem_toList_node.2 (Or.inl hy), by rw [hs]; exact h⟩
        · exact Or.inr ⟨x, mem_toList_node.2 (Or.inr (Or.inr hm)), rfl⟩
    · by_cases h3 : s.right < seg.left
      · by_cases h4 : s.right + 1 < seg.left
        · simp only [insert_link, if_neg h1, if_pos h3, if_pos h4] at hx
          rcases mem_toList_node.1 hx with hm | hs | hm
          · exact Or.inr ⟨x, mem_toList_node.2 (Or.inl hm), rfl⟩
          · exact Or.inr ⟨s, mem_toList_node.2 (Or.inr (Or.inl rfl)), by rw [hs]⟩
          · rcases ihr x hm with h | ⟨y, hy, h⟩
            · exact Or.inl h
            · exact Or.inr ⟨y, mem_toList_node.2 (Or.inr (Or.inr hy)), h⟩
        · simp only [insert_link, if_neg h1, if_pos h3, if_neg h4] at hx
          rcases mem_toList_node.1 hx with hm | hs | hm
          · exact Or.inr ⟨x, mem_toList_node.2 (Or.inl hm), rfl⟩
          · exact Or.inr ⟨s, mem_toList_node.2 (Or.inr (Or.inl rfl)), by rw [hs]⟩
          · exact Or.inr ⟨x,
              mem_toList_node.2 (Or.inr (Or.inr (mem_consume_right hm))), rfl⟩
      · simp only [insert_link, if_neg h1, if_neg h3] at hx
        have hml : ∀ z : Segment,
            z ∈ toList (if seg.left < s.left then (consume_left_link l seg.left).2 else l) →
            z ∈ toList l := by
          by_cases h5 : seg.left < s.left
          · simp only [if_pos h5]
            exact fun z hz => mem_consume_left hz
          · simp only [if_neg h5]
            exact fun z hz => hz
        have hmr : ∀ z : Segment,
            z ∈ toList (if s.right < seg.right then (consume_right_link r seg.right).2 else r) →
            z ∈ toList r := by
          by_cases h6 : s.right < seg.right
          · simp only [if_pos h6]
            exact fun z hz => mem_consume_right hz
          · simp only [if_neg h6]
            exact fun z hz => hz
        have hcl : (if seg.left < s.left then (consume_left_link l seg.left).1 else s.left) = seg.left ∨
            ∃ y ∈ toList (Link.node l s r),
              (if seg.left < s.left then (consume_left_link l seg.left).1 else s.left) = y.left := by
          by_cases h5 : seg.left < s.left
          · simp only [if_pos h5]
            rcases consume_left_fst l seg.left with h | ⟨y, hy, h⟩
            · exact Or.inl h
            · exact Or.inr ⟨y, mem_toList_node.2 (Or.inl hy), h⟩
          · simp only [if_neg h5]
            exact Or.inr ⟨s, mem_toList_node.2 (Or.inr (Or.inl rfl)), rfl⟩
        rcases mem_toList_node.1 hx with hm | hs | hm
        · exact Or.inr ⟨x, mem_toList_node.2 (Or.inl (hml x hm)), rfl⟩
        · rcases hcl with h | ⟨y, hy, h⟩
          · left
            rw [hs]
            exact h
          · exact Or.inr ⟨y, hy, by rw [hs]; exact h⟩
        · exact Or.inr ⟨x, mem_toList_node.2 (Or.inr (Or.inr (hmr x hm))), rfl⟩

lemma insert_link_rights (t : Link) (seg : Segment) :
    ∀ x ∈ toList (insert_link t seg),
      x.right = seg.right ∨ ∃ y ∈ toList t, x.right = y.right := by
  induction t with
  | nil =>
    intro x hx
    simp only [insert_link, toList, List.mem_append, List.mem_cons,
      List.not_mem_nil, or_false, false_or] at hx
    subst hx
    exact Or.inl rfl
  | node l s r ihl ihr =>
    intro x hx
    by_cases h1 : seg.right < s.left
    · by_cases h2 : seg.right < s.left - 1
      · simp only [insert_link, if_pos h1, if_pos h2] at hx
        rcases mem_toList_node.1 hx with hm | hs | hm
        · rcases ihl x hm with h | ⟨y, hy, h⟩
          · exact Or.inl h
          · exact Or.inr ⟨y, mem_toList_node.2 (Or.inl hy), h⟩
        · exact Or.inr ⟨s, mem_toList_node.2 (Or.inr (Or.inl rfl)), by rw [hs]⟩
        · exact Or.inr ⟨x, mem_toList_node.2 (Or.inr (Or.inr hm)), rfl⟩
      · simp only [insert_link, if_pos h1, if_neg h2] at hx
        rcases mem_toList_node.1 hx with hm | hs | hm
        · exact Or.inr ⟨x, mem_toList_node.2 (Or.inl (mem_consume_left hm)), rfl⟩
        · exact Or.inr ⟨s, mem_toList_node.2 (Or.inr (Or.inl rfl)), by rw [hs]⟩
        · exact Or.inr ⟨x, mem_toList_node.2 (Or.inr (Or.inr hm)), rfl⟩
    · by_cases h3 : s.right < seg.left
      · by_cases h4 : s.right + 1 < seg.left
        · simp only [insert_link, if_neg h1, if_pos h3, if_pos h4] at hx
          rcases mem_toList_node.1 hx with hm | hs | hm
          · exact Or.inr ⟨x, mem_toList_node.2 (Or.inl hm), rfl⟩
          · exact Or.inr ⟨s, mem_toList_node.2 (Or.inr (Or.inl rfl)), by rw [hs]⟩
          · rcases ihr x hm with h | ⟨y, hy, h⟩
            · exact Or.inl h
            · exact Or.inr ⟨y, mem_toList_node.2 (Or.inr (Or.inr hy)), h⟩
        · simp only [insert_link, if_neg h1, if_pos h3, if_neg h4] at hx
          rcases mem_toList_node.1 hx with hm | hs | hm
          · exact Or.inr ⟨x, mem_toList_node.2 (Or.inl hm), rfl⟩
          · rcases consume_right_fst r seg.right with h | ⟨y, hy, h⟩
            · left
              rw [hs]
              exact h
            · exact Or.inr ⟨y, mem_toList_node.2 (Or.inr (Or.inr hy)), by rw [hs]; exact h⟩
          · exact Or.inr ⟨x,
              mem_toList_node.2 (Or.inr (Or.inr (mem_consume_right hm))), rfl⟩
      · simp only [insert_link, if_neg h1, if_neg h3] at hx
        have hml : ∀ z : Segment,
            z ∈ toList (if seg.left < s.left then (consume_left_link l seg.left).2 else l) →
            z ∈ toList l := by
          by_cases h5 : seg.left < s.left
          · simp only [if_pos h5]
            exact fun z hz => mem_consume_left hz
          · simp only [if_neg h5]
            exact fun z hz => hz
        have hmr : ∀ z : Segment,
            z ∈ toList (if s.right < seg.right then (consume_right_link r seg.right).2 else r) →
            z ∈ toList r := by
          by_cases h6 : s.right < seg.right
          · simp only [if_pos h6]
            exact fun z hz => mem_consume_right hz
          · simp only [if_neg h6]
            exact fun z hz => hz
        have hcr : (if s.right < seg.right then (consume_right_link r seg.right).1 else s.right) = seg.right ∨
            ∃ y ∈ toList (Link.node l s r),
              (if s.right < seg.right then (consume_right_link r seg.right).1 else s.right) = y.right := by
          by_cases h6 : s.right < seg.right
          · simp only [if_pos h6]
            rcases consume_right_fst r seg.right with h | ⟨y, hy, h⟩
            · exact Or.inl h
            · exact Or.inr ⟨y, mem_toList_node.2 (Or.inr (Or.inr hy)), h⟩
          · simp only [if_neg h6]
            exact Or.inr ⟨s, mem_toList_node.2 (Or.inr (Or.inl rfl)), rfl⟩
        rcases mem_toList_node.1 hx with hm | hs | hm
        · exact Or.inr ⟨x, mem_toList_node.2 (Or.inl (hml x hm)), rfl⟩
        · rcases hcr with h | ⟨y, hy, h⟩
          · left
            rw [hs]
            exact h
          · exact Or.inr ⟨y, hy, by rw [hs]; exact h⟩
        · exact Or.inr ⟨x, mem_toList_node.2 (Or.inr (Or.inr (hmr x hm))), rfl⟩

lemma insert_link_inv {t : Link} {seg : Segment} (hseg : seg.left ≤ seg.right)
    (h : DietInv t = true) : DietInv (insert_link t seg) = true := by
  induction t with
  | nil =>
    simp [insert_link, DietInv, toList, hseg]
  | node l s r ihl ihr =>
    rw [DietInv_node] at h
    obtain ⟨hwf, hl, hr, hIl, hIr⟩ := h
    by_cases h1 : seg.right < s.left
    · by_cases h2 : seg.right < s.left - 1
      · simp only [insert_link, if_pos h1, if_pos h2]
        rw [DietInv_node]
        refine ⟨hwf, ?_, hr, ihl hIl, hIr⟩
        intro x hx
        rcases insert_link_rights l seg x hx with he | ⟨y, hy, he⟩
        · rw [he]
          omega
        · rw [he]
          exact hl y hy
      · simp only [insert_link, if_pos h1, if_neg h2]
        rw [DietInv_node]
        have hcs := consume_left_spec (t := l) seg.left hIl
        refine ⟨?_, hcs.2, hr, hcs.1, hIr⟩
        show (consume_left_link l seg.left).1 ≤ s.right
        rcases consume_left_fst l seg.left with hf | ⟨y, hy, hf⟩
        · rw [hf]
          omega
        · rw [hf]
          have h5 := hl y hy
          have h6 := DietInv_wf hIl y hy
          omega
    · by_cases h3 : s.right < seg.left
      · by_cases h4 : s.right + 1 < seg.left
        · simp only [insert_link, if_neg h1, if_pos h3, if_pos h4]
          rw [DietInv_node]
          refine ⟨hwf, hl, ?_, hIl, ihr hIr⟩
          intro x hx
          rcases insert_link_lefts r seg x hx with he | ⟨y, hy, he⟩
          · rw [he]
            omega
          · rw [he]
            exact hr y hy
        · simp only [insert_link, if_neg h1, if_pos h3, if_neg h4]
          rw [DietInv_node]
          have hcs := consume_right_spec (t := r) seg.right hIr
          refine ⟨?_, hl, hcs.2, hIl, hcs.1⟩
          show s.left ≤ (consume_right_link r seg.right).1
          rcases consume_right_fst r seg.right with hf | ⟨y, hy, hf⟩
          · rw [hf]
            omega
          · rw [hf]
            have h5 := hr y hy
            have h6 := DietInv_wf hIr y hy
            omega
      · simp only [insert_link, if_neg h1, if_neg h3]
        rw [DietInv_node]
        have hLspec :
            DietInv (if seg.left < s.left then (consume_left_link l seg.left).2 else l) = true ∧
            ∀ x ∈ toList (if seg.left < s.left then (consume_left_link l seg.left).2 else l),
              x.right + 1 <
                (if seg.left < s.left then (consume_left_link l seg.left).1 else s.left) := by
          by_cases h5 : seg.left < s.left
          · simp only [if_pos h5]
            exact consume_left_spec seg.left hIl
          · simp only [if_neg h5]
            exact ⟨hIl, hl⟩
        have hRspec :
            DietInv (if s.right < seg.right then (consume_right_link r seg.right).2 else r) = true ∧
            ∀ x ∈ toList (if s.right < seg.right then (consume_right_link r seg.right).2 else r),
              (if s.right < seg.right then (consume_right_link r seg.right).1 else s.right) + 1 <
                x.left := by
          by_cases h6 : s.right < seg.right
          · simp only [if_pos h6]
            exact consume_right_spec seg.right hIr
          · simp only [if_neg h6]
            exact ⟨hIr, hr⟩
        have hLle : (if seg.left < s.left then (consume_left_link l seg.left).1 else s.left) ≤ s.left := by
          by_cases h5 : seg.left < s.left
          · simp only [if_pos h5]
            rcases consume_left_fst l seg.left with hf | ⟨y, hy, hf⟩
            · rw [hf]
              omega
            · rw [hf]
              have h7 := hl y hy
              have h8 := DietInv_wf hIl y hy
              omega
          · simp only [if_neg h5]
            omega
        have hRge : s.right ≤ (if s.right < seg.right then (consume_right_link r seg.right).1 else s.right) := by
          by_cases h6 : s.right < seg.right
          · simp only [if_pos h6]
            rcases consume_right_fst r seg.right with hf | ⟨y, hy, hf⟩
            · rw [hf]
              omega
            · rw [hf]
              have h7 := hr y hy
              have h8 := DietInv_wf hIr y hy
              omega
          · simp only [if_neg h6]
            omega
        refine ⟨?_, hLspec.2, hRspec.2, hLspec.1, hRspec.1⟩
        show (if seg.left < s.left then (consume_left_link l seg.left).1 else s.left) ≤
          (if s.right < seg.right then (consume_right_link r seg.right).1 else s.right)
        omega

lemma pairwise_mem_rel {α : Type} {R : α → α → Prop} :
    ∀ {l : List α}, l.Pairwise R → ∀ {a}, a ∈ l → ∀ {b}, b ∈ l →
      a = b ∨ R a b ∨ R b a := by
  intro l hp
  induction hp with
  | nil =>
    intro a ha
    exact absurd ha (List.not_mem_nil a)
  | cons hhead htail ih =>
    intro a ha b hb
    rcases List.mem_cons.1 ha with rfl | ha2
    · rcases List.mem_cons.1 hb with rfl | hb2
      · exact Or.inl rfl
      · exact Or.inr (Or.inl (hhead b hb2))
    · rcases List.mem_cons.1 hb with rfl | hb2
      · exact Or.inr (Or.inr (hhead a ha2))
      · exact ih ha2 hb2

lemma DietInv_pairwise {t : Link} (h : DietInv t = true) :
    (toList t).Pairwise gapR := by
  induction t with
  | nil => simp [toList]
  | node l s r ihl ihr =>
    rw [DietInv_node] at h
    obtain ⟨hwf, hl, hr, hIl, hIr⟩ := h
    simp only [toList]
    rw [List.pairwise_append]
    refine ⟨ihl hIl, ?_, ?_⟩
    · rw [List.pairwise_cons]
      exact ⟨fun b hb => hr b hb, ihr hIr⟩
    · intro a ha b hb
      rcases List.mem_cons.1 hb with rfl | hb2
      · exact hl a ha
      · have h5 := hl a ha
        have h6 := hr b hb2
        unfold gapR
        omega

lemma toList_length (t : Link) : (toList t).length = sizeT t := by
  induction t with
  | nil => simp [toList, sizeT]
  | node l s r ihl ihr =>
    simp [toList, sizeT, ihl, ihr]
    omega

lemma foldl_insert_inv : ∀ (l : List Segment) (d : Diet),
    (∀ s ∈ l, s.left ≤ s.right) → DietInv d.root = true →
    DietInv (l.foldl Diet.insert d).root = true := by
  intro l
  induction l with
  | nil =>
    intro d _ hd
    simpa [List.foldl] using hd
  | cons a l ih =>
    intro d hwf hd
    simp only [List.foldl]
    apply ih
    · intro s hs
      exact hwf s (List.mem_cons_of_mem a hs)
    · exact insert_link_inv (hwf a (List.mem_cons_self a l)) hd

lemma dietOfList_inv (l : List Segment) (h : ∀ s ∈ l, s.left ≤ s.right) :
    DietInv (dietOfList l).root = true :=
  foldl_insert_inv l Diet.new h (by rfl)

lemma descend_flatten (t : Link) : ∀ st : List StackItem,
    flattenStack (descend st t) = toList t ++ flattenStack st := by
  induction t with
  | nil =>
    intro st
    simp [descend, toList]
  | node l s r ihl ihr =>
    intro st
    simp only [descend]
    rw [ihl]
    simp [flattenStack, toList]

lemma descend_stackSize (t : Link) : ∀ st : List StackItem,
    stackSize (descend st t) = sizeT t + stackSize st := by
  induction t with
  | nil =>
    intro st
    simp [descend, sizeT]
  | node l s r ihl ihr =>
    intro st
    simp only [descend]
    rw [ihl]
    simp [stackSize, sizeT]
    omega

lemma runIterFuel_eq : ∀ (n : Nat) (st : List StackItem), stackSize st ≤ n →
    runIterFuel n st = flattenStack st := by
  intro n
  induction n with
  | zero =>
    intro st h
    cases st with
    | nil => simp [runIterFuel, flattenStack]
    | cons p rest =>
      exfalso
      obtain ⟨ps, pr⟩ := p
      simp [stackSize] at h
  | succ n ih =>
    intro st h
    cases st with
    | nil => simp [runIterFuel, flattenStack]
    | cons p rest =>
      obtain ⟨ps, pr⟩ := p
      simp only [runIterFuel]
      rw [ih]
      · rw [descend_flatten]
        simp [flattenStack]
      · rw [descend_stackSize]
        simp only [stackSize, List.map_cons, List.sum_cons] at h
        simp only [stackSize]
        omega

lemma dietIterList_eq (d : Diet) : dietIterList d = toList d.root := by
  unfold dietIterList
  rw [runIterFuel_eq]
  · rw [descend_flatten]
    simp [flattenStack]
  · rw [descend_stackSize]
    simp [stackSize]

lemma contains_node_iff {t : Link} (v : Int) (h : DietInv t = true) :
    contains_node t v = true ↔ ∃ x ∈ toList t, x.left ≤ v ∧ v ≤ x.right := by
  induction t with
  | nil => simp [contains_node, toList]
  | node l s r ihl ihr =>
    rw [DietInv_node] at h
    obtain ⟨hwf, hl, hr, hIl, hIr⟩ := h
    by_cases hv1 : v < s.left
    · simp only [contains_node, if_pos hv1]
      rw [ihl hIl]
      constructor
      · rintro ⟨x, hx, ha, hb⟩
        exact ⟨x, mem_toList_node.2 (Or.inl hx), ha, hb⟩
      · rintro ⟨x, hx, ha, hb⟩
        rcases mem_toList_node.1 hx with hm | hs2 | hm
        · exact ⟨x, hm, ha, hb⟩
        · exfalso
          rw [hs2] at ha
          omega
        · exfalso
          have := hr x hm
          omega
    · by_cases hv2 : s.right < v
      · simp only [contains_node, if_neg hv1, if_pos hv2]
        rw [ihr hIr]
        constructor
        · rintro ⟨x, hx, ha, hb⟩
          exact ⟨x, mem_toList_node.2 (Or.inr (Or.inr hx)), ha, hb⟩
        · rintro ⟨x, hx, ha, hb⟩
          rcases mem_toList_node.1 hx with hm | hs2 | hm
          · exfalso
            have := hl x hm
            omega
          · exfalso
            rw [hs2] at hb
            omega
          · exact ⟨x, hm, ha, hb⟩
      · simp only [contains_node, if_neg hv1, if_neg hv2]
        constructor
        · intro _
          exact ⟨s, mem_toList_node.2 (Or.inr (Or.inl rfl)), by omega, by omega⟩
        · intro _
          trivial

lemma covered_single {L : List Segment} (hp : L.Pairwise gapR)
    {a b : Int} (hab : a ≤ b)
    (hcov : ∀ v : Int, a ≤ v → v ≤ b → ∃ u ∈ L, u.left ≤ v ∧ v ≤ u.right) :
    ∃ u ∈ L, u.left ≤ a ∧ b ≤ u.right := by
  obtain ⟨u0, hu0, hl0, hr0⟩ := hcov a le_rfl hab
  refine ⟨u0, hu0, hl0, ?_⟩
  by_contra hb
  push_neg at hb
  obtain ⟨u1, hu1, hl1, hr1⟩ := hcov (u0.right + 1) (by omega) (by omega)
  rcases pairwise_mem_rel hp hu0 hu1 with he | hR | hR
  · rw [← he] at hr1
    omega
  · unfold gapR at hR
    omega
  · unfold gapR at hR
    omega

lemma insert_link_covered {t : Link} {seg u : Segment} (h : DietInv t = true)
    (hseg : seg.left ≤ seg.right) (hu : u ∈ toList t)
    (h1 : u.left ≤ seg.left) (h2 : seg.right ≤ u.right) :
    insert_link t seg = t := by
  induction t with
  | nil => exact absurd hu (by simp [toList])
  | node l s r ihl ihr =>
    rw [DietInv_node] at h
    obtain ⟨hwf, hl, hr, hIl, hIr⟩ := h
    rcases mem_toList_node.1 hu with hm | hequ | hm
    · have hgap := hl u hm
      have hwfu := DietInv_wf hIl u hm
      have hA : seg.right < s.left := by omega
      have hB : seg.right < s.left - 1 := by omega
      simp only [insert_link, if_pos hA, if_pos hB]
      rw [ihl hIl hm]
    · rw [hequ] at h1 h2
      have hA : ¬ seg.right < s.left := by omega
      have hB : ¬ s.right < seg.left := by omega
      have hC : ¬ seg.left < s.left := by omega
      have hD : ¬ s.right < seg.right := by omega
      simp only [insert_link, if_neg hA, if_neg hB, if_neg hC, if_neg hD]
    · have hgap := hr u hm
      have hA : ¬ seg.right < s.left := by omega
      have hB : s.right < seg.left := by omega
      have hC : s.right + 1 < seg.left := by omega
      simp only [insert_link, if_neg hA, if_pos hB, if_pos hC]
      rw [ihr hIr hm]

lemma consume_left_size (t : Link) (c : Int) :
    sizeT (consume_left_link t c).2 ≤ sizeT t := by
  induction t with
  | nil => simp [consume_left_link, sizeT]
  | node l s r ihl ihr =>
    by_cases hc : s.right + 1 < c
    · simp only [consume_left_link, if_pos hc, sizeT]
      omega
    · simp only [consume_left_link, if_neg hc, sizeT]
      omega

lemma consume_right_size (t : Link) (c : Int) :
    sizeT (consume_right_link t c).2 ≤ sizeT t := by
  induction t with
  | nil => simp [consume_right_link, sizeT]
  | node l s r ihl ihr =>
    by_cases hc : c < s.left - 1
    · simp only [consume_right_link, if_pos hc, sizeT]
      omega
    · simp only [consume_right_link, if_neg hc, sizeT]
      omega

lemma insert_link_size (t : Link) (seg : Segment) :
    sizeT (insert_link t seg) ≤ sizeT t + 1 := by
  induction t with
  | nil => simp [insert_link, sizeT]
  | node l s r ihl ihr =>
    by_cases h1 : seg.right < s.left
    · by_cases h2 : seg.right < s.left - 1
      · simp only [insert_link, if_pos h1, if_pos h2, sizeT]
        omega
      · simp only [insert_link, if_pos h1, if_neg h2, sizeT]
        have := consume_left_size l seg.left
        omega
    · by_cases h3 : s.right < seg.left
      · by_cases h4 : s.right + 1 < seg.left
        · simp only [insert_link, if_neg h1, if_pos h3, if_pos h4, sizeT]
          omega
        · simp only [insert_link, if_neg h1, if_pos h3, if_neg h4, sizeT]
          have := consume_right_size r seg.right
          omega
      · simp only [insert_link, if_neg h1, if_neg h3, sizeT]
        have hL : sizeT (if seg.left < s.left then (consume_left_link l seg.left).2 else l) ≤ sizeT l := by
          by_cases h5 : seg.left < s.left
          · simp only [if_pos h5]
            exact consume_left_size l seg.left
          · simp only [if_neg h5]
            omega
        have hR : sizeT (if s.right < seg.right then (consume_right_link r seg.right).2 else r) ≤ sizeT r := by
          by_cases h6 : s.right < seg.right
          · simp only [if_pos h6]
            exact consume_right_size r seg.right
          · simp only [if_neg h6]
            omega
        omega

lemma insert_link_ne_nil (t : Link) (seg : Segment) :
    insert_link t seg ≠ Link.nil := by
  cases t with
  | nil => simp [insert_link]
  | node l s r =>
    by_cases h1 : seg.right < s.left
    · by_cases h2 : seg.right < s.left - 1
      · simp [insert_link, if_pos h1, if_pos h2]
      · simp [insert_link, if_pos h1, if_neg h2]
    · by_cases h3 : s.right < seg.left
      · by_cases h4 : s.right + 1 < seg.left
        · simp [insert_link, if_neg h1, if_pos h3, if_pos h4]
        · simp [insert_link, if_neg h1, if_pos h3, if_neg h4]
      · simp [insert_link, if_neg h1, if_neg h3]

lemma consume_left_chk_eq (t : Link) (c : Int) :
    consume_left_link_chk t c = some (consume_left_link t c) := by
  induction t with
  | nil => simp [consume_left_link_chk, consume_left_link]
  | node l s r ihl ihr =>
    by_cases hc : s.right + 1 < c
    · simp [consume_left_link_chk, consume_left_link, if_pos hc, ihr]
    · simp [consume_left_link_chk, consume_left_link, if_neg hc, linkNode]

lemma consume_right_chk_eq (t : Link) (c : Int) :
    consume_right_link_chk t c = some (consume_right_link t c) := by
  induction t with
  | nil => simp [consume_right_link_chk, consume_right_link]
  | node l s r ihl ihr =>
    by_cases hc : c < s.left - 1
    · simp [consume_right_link_chk, consume_right_link, if_pos hc, ihl]
    · simp [consume_right_link_chk, consume_right_link, if_neg hc, linkNode]

lemma insert_link_chk_eq (t : Link) (seg : Segment) :
    insert_link_chk t seg = some (insert_link t seg) := by
  induction t with
  | nil => simp [insert_link_chk, insert_link]
  | node l s r ihl ihr =>
    by_cases h1 : seg.right < s.left
    · by_cases h2 : seg.right < s.left - 1
      · simp [insert_link_chk, insert_link, if_pos h1, if_pos h2, ihl]
      · simp [insert_link_chk, insert_link, if_pos h1, if_neg h2, consume_left_chk_eq]
    · by_cases h3 : s.right < seg.left
      · by_cases h4 : s.right + 1 < seg.left
        · simp [insert_link_chk, insert_link, if_neg h1, if_pos h3, if_pos h4, ihr]
        · simp [insert_link_chk, insert_link, if_neg h1, if_pos h3, if_neg h4,
            consume_right_chk_eq]
      · by_cases h5 : seg.left < s.left
        · by_cases h6 : s.right < seg.right
          · simp [insert_link_chk, insert_link, if_neg h1, if_neg h3, if_pos h5,
              if_pos h6, consume_left_chk_eq, consume_right_chk_eq]
          · simp [insert_link_chk, insert_link, if_neg h1, if_neg h3, if_pos h5,
              if_neg h6, consume_left_chk_eq]
        · by_cases h6 : s.right < seg.right
          · simp [insert_link_chk, insert_link, if_neg h1, if_neg h3, if_neg h5,
              if_pos h6, consume_right_chk_eq]
          · simp [insert_link_chk, insert_link, if_neg h1, if_neg h3, if_neg h5,
              if_neg h6]

lemma pairwise_imp_of_mem {α : Type} {R S : α → α → Prop} :
    ∀ {l : List α}, (∀ a ∈ l, ∀ b ∈ l, R a b → S a b) → l.Pairwise R →
      l.Pairwise S := by
  intro l
  induction l with
  | nil =>
    intro _ _
    exact List.Pairwise.nil
  | cons a t ih =>
    intro h hp
    rw [List.pairwise_cons] at hp ⊢
    refine ⟨?_, ih ?_ hp.2⟩
    · intro b hb
      exact h a (List.mem_cons_self a t) b (List.mem_cons_of_mem a hb) (hp.1 b hb)
    · intro x hx y hy hr
      exact h x (List.mem_cons_of_mem a hx) y (List.mem_cons_of_mem a hy) hr

/-- Claim C1: the claim states that after inserting any multiset of valid
segments, contains(v) is true exactly for v in the union of the inserted
ranges, independently of insertion order.  The code violates this: inserting
[10,20], [5,6], [3,12] into a fresh tree loses the values 3 and 4 of the
inserted segment [3,12] (contains(3) = false), while the insertion order
[3,12], [10,20], [5,6] gives contains(3) = true, so the result is also
order-dependent.  The culprit is consume_left_link, which returns the
spliced node's own left bound (5) instead of the smaller candidate bound
(3), contradicting its doc comment ("return the leftmost boundary"). -/
theorem c1_union_order_independence_bug :
    ((⟨3, 12⟩ : Segment) ∈ ([⟨10, 20⟩, ⟨5, 6⟩, ⟨3, 12⟩] : List Segment) ∧
      Segment.contains ⟨3, 12⟩ 3 = true) ∧
    Diet.contains (dietOfList [⟨10, 20⟩, ⟨5, 6⟩, ⟨3, 12⟩]) 3 = false ∧
    Diet.contains (dietOfList [⟨3, 12⟩, ⟨10, 20⟩, ⟨5, 6⟩]) 3 = true := by
  decide

/-- Claim C2: the claim states that inserting a segment overlapping or
adjacent to existing stored segments yields a single merged segment spanning
both the inserted and the existing segments.  The code violates this: with
stored segments [5,6] and [10,20], inserting [3,9] (which overlaps [5,6] and
is adjacent to [10,20]) produces the single stored segment [5,20], which
does not span the inserted segment: 3 is lost. -/
theorem c2_merge_bug :
    dietIterList (dietOfList [⟨10, 20⟩, ⟨5, 6⟩]) = [⟨5, 6⟩, ⟨10, 20⟩] ∧
    Segment.contains ⟨5, 6⟩ 5 = true ∧ Segment.contains ⟨3, 9⟩ 5 = true ∧
    dietIterList (Diet.insert (dietOfList [⟨10, 20⟩, ⟨5, 6⟩]) ⟨3, 9⟩) = [⟨5, 20⟩] ∧
    Diet.contains (Diet.insert (dietOfList [⟨10, 20⟩, ⟨5, 6⟩]) ⟨3, 9⟩) 3 = false := by
  decide

/-- Claim C3: after any sequence of inserts of valid segments into a fresh
tree, consuming iteration yields exactly the stored segments (the in-order
list, hence each exactly once and finitely many), pairwise disjoint and
non-adjacent (gapR), strictly ascending by left, and all well formed. -/
theorem c3_iteration_invariants (l : List Segment)
    (hW : ∀ s ∈ l, s.left ≤ s.right) :
    dietIterList (dietOfList l) = toList (dietOfList l).root ∧
    (dietIterList (dietOfList l)).length = sizeT (dietOfList l).root ∧
    (dietIterList (dietOfList l)).Pairwise gapR ∧
    (dietIterList (dietOfList l)).Pairwise (fun a b => a.left < b.left) ∧
    ∀ s ∈ dietIterList (dietOfList l), s.left ≤ s.right := by
  have hInv := dietOfList_inv l hW
  have he := dietIterList_eq (dietOfList l)
  have hp := DietInv_pairwise hInv
  refine ⟨he, ?_, ?_, ?_, ?_⟩
  · rw [he]
    exact toList_length _
  · rw [he]
    exact hp
  · rw [he]
    have hwf := DietInv_wf hInv
    refine pairwise_imp_of_mem ?_ hp
    intro a ha b hb hab
    have := hwf a ha
    unfold gapR at hab
    omega
  · rw [he]
    exact DietInv_wf hInv

/-- Claim C3 witness: the invariants evaluated on a concrete insert
sequence. -/
theorem c3_witness :
    (∀ s ∈ ([⟨5, 7⟩, ⟨1, 2⟩] : List Segment), s.left ≤ s.right) ∧
    (dietIterList (dietOfList [⟨5, 7⟩, ⟨1, 2⟩]) = toList (dietOfList [⟨5, 7⟩, ⟨1, 2⟩]).root ∧
     (dietIterList (dietOfList [⟨5, 7⟩, ⟨1, 2⟩])).length = sizeT (dietOfList [⟨5, 7⟩, ⟨1, 2⟩]).root ∧
     (dietIterList (dietOfList [⟨5, 7⟩, ⟨1, 2⟩])).Pairwise gapR ∧
     (dietIterList (dietOfList [⟨5, 7⟩, ⟨1, 2⟩])).Pairwise (fun a b => a.left < b.left) ∧
     ∀ s ∈ dietIterList (dietOfList [⟨5, 7⟩, ⟨1, 2⟩]), s.left ≤ s.right) :=
  ⟨by decide, c3_iteration_invariants _ (by decide)⟩

/-- Claim C4 counterexample: a reachable tree satisfying the global
invariant in which a single consume_left_link call (with candidate boundary
3, exactly the call made by inserting [3,12]) splices out the node [5,6]
whose right child [8,8] is nonempty and is discarded along with it: the
subtree shrinks from 3 nodes to 1 node, removing two nodes, and the whole
insert removes two nodes.  This refutes both "at most one adjacency/overlap
candidate exists on each side" and "that node has no right child beyond the
spliced point (nothing else is discarded)". -/
theorem c4_consume_discards_right_subtree :
    DietInv (dietOfList [⟨10, 20⟩, ⟨0, 1⟩, ⟨5, 6⟩, ⟨8, 8⟩]).root = true ∧
    (dietOfList [⟨10, 20⟩, ⟨0, 1⟩, ⟨5, 6⟩, ⟨8, 8⟩]).root =
      Link.node
        (Link.node Link.nil ⟨0, 1⟩ (Link.node Link.nil ⟨5, 6⟩ (Link.node Link.nil ⟨8, 8⟩ Link.nil)))
        ⟨10, 20⟩ Link.nil ∧
    consume_left_link
        (Link.node Link.nil ⟨0, 1⟩ (Link.node Link.nil ⟨5, 6⟩ (Link.node Link.nil ⟨8, 8⟩ Link.nil)))
        3 =
      (5, Link.node Link.nil ⟨0, 1⟩ Link.nil) ∧
    sizeT (Link.node Link.nil ⟨0, 1⟩ (Link.node Link.nil ⟨5, 6⟩ (Link.node Link.nil ⟨8, 8⟩ Link.nil))) = 3 ∧
    sizeT (Link.node Link.nil ⟨0, 1⟩ Link.nil) = 1 ∧
    sizeT (Diet.insert (dietOfList [⟨10, 20⟩, ⟨0, 1⟩, ⟨5, 6⟩, ⟨8, 8⟩]) ⟨3, 12⟩).root + 2 =
      sizeT (dietOfList [⟨10, 20⟩, ⟨0, 1⟩, ⟨5, 6⟩, ⟨8, 8⟩]).root := by
  decide

/-- Claim C4 (amended): what a single boundary-consumption call actually
does: it either leaves the link unchanged and returns the candidate
boundary, or it splices out exactly one node, returns that node's own
boundary, and additionally discards that node's entire right (resp. left)
subtree, which may be nonempty; the removed segments always form a
contiguous suffix (resp. prefix) of the subtree's in-order segment list. -/
theorem c4_consume_drop_suffix : ∀ (t : Link) (c : Int),
    (∃ dropped, toList t = toList (consume_left_link t c).2 ++ dropped ∧
      ((dropped = [] ∧ (consume_left_link t c).1 = c) ∨
       ∃ s rest, dropped = s :: rest ∧ (consume_left_link t c).1 = s.left)) ∧
    (∃ dropped, toList t = dropped ++ toList (consume_right_link t c).2 ∧
      ((dropped = [] ∧ (consume_right_link t c).1 = c) ∨
       ∃ s rest, dropped = rest ++ [s] ∧ (consume_right_link t c).1 = s.right)) :=
  fun t c => ⟨toList_consume_left t c, toList_consume_right t c⟩

/-- Claim C5: on any tree satisfying the ordering/gap invariant,
Diet::contains(v) is true iff some stored segment contains v, and it is
false on an empty tree. -/
theorem c5_contains_correct (d : Diet) (v : Int) (h : DietInv d.root = true) :
    (Diet.contains d v = true ↔ ∃ s ∈ toList d.root, Segment.contains s v = true) ∧
    (d.root = Link.nil → Diet.contains d v = false) := by
  constructor
  · unfold Diet.contains
    rw [contains_node_iff v h]
    constructor
    · rintro ⟨x, hx, h1, h2⟩
      exact ⟨x, hx, (contains_true_iff x v).2 ⟨h1, h2⟩⟩
    · rintro ⟨x, hx, hc⟩
      obtain ⟨h1, h2⟩ := (contains_true_iff x v).1 hc
      exact ⟨x, hx, h1, h2⟩
  · intro he
    unfold Diet.contains
    rw [he]
    rfl

/-- Claim C5 witness: contains correctness evaluated on a concrete tree. -/
theorem c5_witness :
    DietInv (dietOfList [⟨1, 3⟩]).root = true ∧
    ((Diet.contains (dietOfList [⟨1, 3⟩]) 2 = true ↔
        ∃ s ∈ toList (dietOfList [⟨1, 3⟩]).root, Segment.contains s 2 = true) ∧
     ((dietOfList [⟨1, 3⟩]).root = Link.nil → Diet.contains (dietOfList [⟨1, 3⟩]) 2 = false)) :=
  ⟨by decide, c5_contains_correct _ 2 (by decide)⟩

/-- Claim C6: inserting a segment fully covered by the union of the already
stored segments changes neither the contains predicate nor the iterated
segment sequence (the tree is in fact unchanged). -/
theorem c6_idempotent (d : Diet) (seg : Segment) (hInv : DietInv d.root = true)
    (hseg : seg.left ≤ seg.right)
    (hcov : ∀ v : Int, seg.left ≤ v → v ≤ seg.right →
      ∃ u ∈ toList d.root, Segment.contains u v = true) :
    (∀ v : Int, Diet.contains (Diet.insert d seg) v = Diet.contains d v) ∧
    dietIterList (Diet.insert d seg) = dietIterList d := by
  have hcov2 : ∀ v : Int, seg.left ≤ v → v ≤ seg.right →
      ∃ u ∈ toList d.root, u.left ≤ v ∧ v ≤ u.right := by
    intro v h1 h2
    obtain ⟨u, hu, hc⟩ := hcov v h1 h2
    obtain ⟨ha, hb⟩ := (contains_true_iff u v).1 hc
    exact ⟨u, hu, ha, hb⟩
  obtain ⟨u, hu, h1, h2⟩ := covered_single (DietInv_pairwise hInv) hseg hcov2
  have key : insert_link d.root seg = d.root := insert_link_covered hInv hseg hu h1 h2
  have hd : Diet.insert d seg = d := by
    unfold Diet.insert
    rw [key]
  rw [hd]
  exact ⟨fun v => rfl, rfl⟩

/-- Claim C6 witness: idempotence evaluated on a concrete covered insert. -/
theorem c6_witness :
    DietInv (dietOfList [⟨1, 10⟩]).root = true ∧
    (⟨2, 5⟩ : Segment).left ≤ (⟨2, 5⟩ : Segment).right ∧
    ((∀ v : Int, Diet.contains (Diet.insert (dietOfList [⟨1, 10⟩]) ⟨2, 5⟩) v =
        Diet.contains (dietOfList [⟨1, 10⟩]) v) ∧
     dietIterList (Diet.insert (dietOfList [⟨1, 10⟩]) ⟨2, 5⟩) =
       dietIterList (dietOfList [⟨1, 10⟩])) :=
  ⟨by decide, by decide,
    c6_idempotent (dietOfList [⟨1, 10⟩]) ⟨2, 5⟩ (by decide) (by decide)
      (by
        intro v h1 h2
        have h1a : (2 : Int) ≤ v := h1
        have h2a : v ≤ (5 : Int) := h2
        refine ⟨⟨1, 10⟩, by decide, ?_⟩
        simp [Segment.contains]
        omega)⟩

/-- Claim C7: the reference example: inserting [5,15], [20,40], [100,200],
[10,25] in that order and iterating yields exactly [5,40], [100,200]. -/
theorem c7_reference_example :
    dietIterList (dietOfList [⟨5, 15⟩, ⟨20, 40⟩, ⟨100, 200⟩, ⟨10, 25⟩]) =
      [⟨5, 40⟩, ⟨100, 200⟩] := by
  decide

/-- Claim C8: Segment::new fails exactly when left > right (new 5 4 fails,
new 5 5 succeeds and that singleton contains exactly 5), and contains is
true iff left <= v <= right for every constructed segment. -/
theorem c8_segment_new_contract :
    Segment.new 5 4 = none ∧
    Segment.new 5 5 = some ⟨5, 5⟩ ∧
    (∀ v : Int, Segment.contains ⟨5, 5⟩ v = true ↔ v = 5) ∧
    (∀ a b : Int, Segment.new a b = none ↔ b < a) ∧
    (∀ a b : Int, ∀ s : Segment, Segment.new a b = some s →
      s.left = a ∧ s.right = b ∧ a ≤ b) ∧
    (∀ s : Segment, ∀ v : Int,
      Segment.contains s v = true ↔ s.left ≤ v ∧ v ≤ s.right) := by
  refine ⟨by decide, by decide, ?_, ?_, ?_, ?_⟩
  · intro v
    simp [Segment.contains]
    omega
  · intro a b
    unfold Segment.new
    by_cases h : a ≤ b
    · simp [if_pos h]
      omega
    · simp [if_neg h]
      omega
  · intro a b s h
    unfold Segment.new at h
    by_cases hab : a ≤ b
    · rw [if_pos hab] at h
      injection h with h2
      rw [← h2]
      exact ⟨rfl, rfl, hab⟩
    · rw [if_neg hab] at h
      cases h
  · intro s v
    exact contains_true_iff s v

/-- Claim C8 witness: the constructed-segment clause applied at a concrete
successful construction. -/
theorem c8_witness :
    (⟨2, 3⟩ : Segment).left = 2 ∧ (⟨2, 3⟩ : Segment).right = 3 ∧ (2 : Int) ≤ 3 :=
  c8_segment_new_contract.2.2.2.2.1 2 3 ⟨2, 3⟩ (by decide)

/-- Claim C9: the operations are total and never panic.  In the embedding
every function is a total structurally recursive definition (so every
recursion terminates), and the instrumented versions, in which each
mem::replace(..).unwrap() inside the boundary-consumption routines is made
an explicit Option, always return some: no panic branch is reachable, for
every tree and every input segment or boundary (no invariant needed). -/
theorem c9_no_panics : ∀ (t : Link) (c : Int) (seg : Segment),
    consume_left_link_chk t c = some (consume_left_link t c) ∧
    consume_right_link_chk t c = some (consume_right_link t c) ∧
    insert_link_chk t seg = some (insert_link t seg) :=
  fun t c seg =>
    ⟨consume_left_chk_eq t c, consume_right_chk_eq t c, insert_link_chk_eq t seg⟩

/-- Claim C10: a single insert increases the number of stored nodes by at
most one, and the tree is never empty after an insert. -/
theorem c10_insert_size : ∀ (d : Diet) (seg : Segment),
    sizeT (Diet.insert d seg).root ≤ sizeT d.root + 1 ∧
    Diet.isEmpty (Diet.insert d seg) = false := by
  intro d seg
  constructor
  · exact insert_link_size d.root seg
  · show Diet.isEmpty ⟨insert_link d.root seg⟩ = false
    cases hi : insert_link d.root seg with
    | nil => exact absurd hi (insert_link_ne_nil d.root seg)
    | node l s r => rfl
